import Mathlib

/-!
Verification of the equation-placeholder restoration core of the translateAI
repository, shallowly embedded in Lean.

Texts are modelled as lists of characters.  The regular expressions of the
Python sources are hand-compiled into deterministic matchers that reproduce
the engine's leftmost-match, greedy/lazy and ordered-alternation semantics
for the concrete patterns used by the code (each matcher's derivation from
its pattern is documented at its definition).  Scanning (finditer) and
substitution (sub) are modelled by fuel recursion over start positions;
all patterns in question only produce non-empty matches, so the fuel and
the non-empty-match guards are never exercised on reachable inputs.
-/

namespace TranslateAI

/-- Characters of a string literal. -/
def strL (s : String) : List Char := s.data

/-- Substring of a character list from position a (inclusive) to b (exclusive). -/
def slice (s : List Char) (a b : Nat) : List Char := (s.drop a).take (b - a)

/-- ASCII lower-casing used to model the IGNORECASE flag on the patterns. -/
def lc (c : Char) : Char := c.toLower

/-- Whitespace class of the regex escape for space characters
(space, tab, newline, carriage return, vertical tab, form feed). -/
def isSpacePy (c : Char) : Bool :=
  c = ' ' || c = '\t' || c = '\n' || c = '\r' || c = Char.ofNat 11 || c = Char.ofNat 12

/-- Word-character class of the regex escape for word characters (ASCII model). -/
def isWordPy (c : Char) : Bool := c.isAlphanum || c = '_'

/-- Character class of the tolerant pattern of the batch script:
angle brackets, backslash, comma and whitespace. -/
def inRobustClass (c : Char) : Bool :=
  c = '<' || c = '\\' || c = '>' || c = ',' || isSpacePy c

/-- Trailing character class of the v4 comprehensive pattern: comma,
closing angle bracket and whitespace. -/
def inTailClass (c : Char) : Bool := c = ',' || c = '>' || isSpacePy c

/-- Case-sensitive literal test at a position. -/
def litAt (s : List Char) (i : Nat) : List Char → Bool
  | [] => true
  | c :: cs =>
    match s.get? i with
    | some d => d == c && litAt s (i + 1) cs
    | none => false

/-- Case-insensitive literal test at a position. -/
def litCIAt (s : List Char) (i : Nat) : List Char → Bool
  | [] => true
  | c :: cs =>
    match s.get? i with
    | some d => lc d == lc c && litCIAt s (i + 1) cs
    | none => false

/-- Length of the maximal run of characters satisfying p at the head of a list. -/
def runLenL (p : Char → Bool) : List Char → Nat
  | [] => 0
  | c :: cs => if p c then runLenL p cs + 1 else 0

/-- Length of the maximal run of characters satisfying p starting at position i. -/
def runLen (p : Char → Bool) (s : List Char) (i : Nat) : Nat := runLenL p (s.drop i)

/-- Length of the maximal digit run at position i. -/
def digitRun (s : List Char) (i : Nat) : Nat := runLen Char.isDigit s i

/-- Length of the maximal whitespace run at position i. -/
def spaceRun (s : List Char) (i : Nat) : Nat := runLen isSpacePy s i

/-- Length of the maximal run of closing angle brackets at position i. -/
def gtRun (s : List Char) (i : Nat) : Nat := runLen (fun c => c = '>') s i

/-- Case-sensitive substring test (Python `in` on str). -/
def hasSub (s pat : List Char) : Bool :=
  (List.range (s.length + 1)).any (fun i => litAt s i pat)

/-- Case-insensitive substring test (Python `in` on a lower-cased string). -/
def hasSubCI (s pat : List Char) : Bool :=
  (List.range (s.length + 1)).any (fun i => litCIAt s i pat)

/-- Trailing-comma test (Python endswith on a comma). -/
def endsComma (s : List Char) : Bool := s.getLast? == some ','

/-! ### Matchers for the concrete patterns of the sources

Each matcher takes the text and a start position and returns the end
position of the match the regex engine would produce starting exactly
there, or none.  Greedy quantifiers whose alternatives cannot succeed on
backtracking are compiled to maximal runs; where backtracking is
observable (the v4 damaged pattern with the negative lookahead, and the
digit run of the comprehensive pattern), it is implemented explicitly. -/

/-- Matcher for the well-formed placeholder pattern: two opening angle
brackets, the Eqn keyword (case-insensitive), digits, an optional eps
extension, two closing angle brackets, an optional comma.  The batch
script calls it the placeholder pattern; the v4 scanner calls it the
correct pattern. -/
def correctEnd (s : List Char) (i : Nat) : Option Nat :=
  if litAt s i (strL "<<") && litCIAt s (i + 2) (strL "Eqn") then
    let d := digitRun s (i + 5)
    if d = 0 then none else
    let q := i + 5 + d
    let q := if litCIAt s q (strL ".eps") then q + 4 else q
    if litAt s q (strL ">>") then
      some (if litAt s (q + 2) (strL ",") then q + 3 else q + 2)
    else none
  else none

/-- Matcher for the strict pattern of the batch restorer: the well-formed
placeholder without the optional trailing comma. -/
def strictEnd (s : List Char) (i : Nat) : Option Nat :=
  if litAt s i (strL "<<") && litCIAt s (i + 2) (strL "Eqn") then
    let d := digitRun s (i + 5)
    if d = 0 then none else
    let q := i + 5 + d
    let q := if litCIAt s q (strL ".eps") then q + 4 else q
    if litAt s q (strL ">>") then some (q + 2) else none
  else none

/-- Core of the tolerant (robust) pattern of the batch restorer at a fixed
keyword position: the Eqn keyword, digits, optional eps extension, then a
greedy run over the bracket/comma/whitespace class. -/
def robustCore (s : List Char) (q : Nat) : Option Nat :=
  if litCIAt s q (strL "Eqn") then
    let d := digitRun s (q + 3)
    if d = 0 then none else
    let p := q + 3 + d
    let p := if litCIAt s p (strL ".eps") then p + 4 else p
    some (p + runLen inRobustClass s p)
  else none

/-- Lazy-prefix search of the robust pattern: the keyword may be preceded
by a minimal run of bracket/comma/whitespace characters; positions are
tried from the shortest prefix upward, the budget being the length of the
class run starting at the match position. -/
def robustTryQ (s : List Char) (q : Nat) : Nat → Option Nat
  | 0 => robustCore s q
  | k + 1 =>
    match robustCore s q with
    | some e => some e
    | none => robustTryQ s (q + 1) k

/-- Matcher for the tolerant pattern of the batch restorer: a lazy run over
the bracket/comma/whitespace class, the Eqn keyword, digits, optional eps
extension, and a greedy run over the same class. -/
def robustEnd (s : List Char) (i : Nat) : Option Nat :=
  robustTryQ s i (runLen inRobustClass s i)

/-- Matcher for the first damaged pattern of the v4 scanner: the Eqn
keyword not preceded by an opening angle bracket (negative lookbehind),
digits, optional eps extension, two closing angle brackets, optional
comma. -/
def d1End (s : List Char) (i : Nat) : Option Nat :=
  let lb : Bool :=
    match i with
    | 0 => true
    | j + 1 =>
      match s.get? j with
      | some c => c ≠ '<'
      | none => true
  if lb && litCIAt s i (strL "Eqn") then
    let d := digitRun s (i + 3)
    if d = 0 then none else
    let q := i + 3 + d
    let q := if litCIAt s q (strL ".eps") then q + 4 else q
    if litAt s q (strL ">>") then
      some (if litAt s (q + 2) (strL ",") then q + 3 else q + 2)
    else none
  else none

/-- Backtracking digit loop of the second damaged pattern of the v4 scanner:
for a descending number of digits, the optional eps extension is tried
first (greedy), then the variant without it; each variant requires the
negative lookahead that the next two characters are not a double closing
bracket. -/
def d2TryD (s : List Char) (p0 : Nat) : Nat → Option Nat
  | 0 => none
  | d + 1 =>
    let q := p0 + (d + 1)
    let withEps : Option Nat :=
      if litCIAt s q (strL ".eps") && !litAt s (q + 4) (strL ">>") then some (q + 4)
      else none
    match withEps with
    | some e => some e
    | none =>
      if !litAt s q (strL ">>") then some q
      else d2TryD s p0 d

/-- Matcher for the second damaged pattern of the v4 scanner: two opening
angle brackets, the Eqn keyword, digits, optional eps extension, not
followed by a double closing bracket. -/
def d2End (s : List Char) (i : Nat) : Option Nat :=
  if litAt s i (strL "<<") && litCIAt s (i + 2) (strL "Eqn") then
    let m := digitRun s (i + 5)
    if m = 0 then none else d2TryD s (i + 5) m
  else none

/-- Matcher for the third damaged pattern of the v4 scanner: an opening
angle bracket, at least one whitespace, another opening angle bracket,
the Eqn keyword, digits, optional eps extension, a closing angle bracket,
optional whitespace, another closing angle bracket. -/
def d3End (s : List Char) (i : Nat) : Option Nat :=
  if s.get? i = some '<' then
    let w := spaceRun s (i + 1)
    if w = 0 then none else
    let j := i + 1 + w
    if s.get? j = some '<' && litCIAt s (j + 1) (strL "Eqn") then
      let d := digitRun s (j + 4)
      if d = 0 then none else
      let q := j + 4 + d
      let q := if litCIAt s q (strL ".eps") then q + 4 else q
      if s.get? q = some '>' then
        let w2 := spaceRun s (q + 1)
        if s.get? (q + 1 + w2) = some '>' then some (q + 2 + w2) else none
      else none
    else none
  else none

/-- Matcher for the fourth damaged pattern of the v4 scanner: a well-formed
opening, digits, optional eps extension, then three or more closing angle
brackets and an optional comma. -/
def d4End (s : List Char) (i : Nat) : Option Nat :=
  if litAt s i (strL "<<") && litCIAt s (i + 2) (strL "Eqn") then
    let d := digitRun s (i + 5)
    if d = 0 then none else
    let q := i + 5 + d
    let q := if litCIAt s q (strL ".eps") then q + 4 else q
    let g := gtRun s q
    if 3 ≤ g then some (if litAt s (q + g) (strL ",") then q + g + 1 else q + g)
    else none
  else none

/-- Tail alternation of the v4 comprehensive pattern, tried in pattern
order: a double closing bracket; a closing bracket, whitespace and another
closing bracket; a zero-width lookahead for a non-word character; the end
of the string.  Returns the position reached before the trailing class
run. -/
def compTail (s : List Char) (q : Nat) : Option Nat :=
  if litAt s q (strL ">>") then some (q + 2)
  else if s.get? q = some '>' then
    let w := spaceRun s (q + 1)
    if s.get? (q + 1 + w) = some '>' then some (q + 2 + w)
    else some q
  else
    match s.get? q with
    | some c => if isWordPy c then none else some q
    | none => some q

/-- Backtracking digit loop of the v4 comprehensive pattern body: for a
descending number of digits, the optional eps extension is tried first,
then the variant without it, each continuing with the tail alternation. -/
def compTryD (s : List Char) (p0 : Nat) : Nat → Option Nat
  | 0 => none
  | d + 1 =>
    let q := p0 + (d + 1)
    let withEps : Option Nat :=
      if litCIAt s q (strL ".eps") then compTail s (q + 4) else none
    match withEps with
    | some t => some t
    | none =>
      match compTail s q with
      | some t => some t
      | none => compTryD s p0 d

/-- Body of the v4 comprehensive pattern at the position after the head:
the Eqn keyword, digits, optional eps extension, tail alternation. -/
def compBody (s : List Char) (p : Nat) : Option Nat :=
  if litCIAt s p (strL "Eqn") then
    let m := digitRun s (p + 3)
    if m = 0 then none else compTryD s (p + 3) m
  else none

/-- Body of the comprehensive pattern followed by the greedy trailing run
over the comma/bracket/whitespace class. -/
def compBodyTailed (s : List Char) (p : Nat) : Option Nat :=
  match compBody s p with
  | some t => some (t + runLen inTailClass s t)
  | none => none

/-- Matcher for the comprehensive substitution pattern of the v4 restorer.
The head alternation is tried in pattern order: a double opening bracket;
an opening bracket, whitespace and another opening bracket; a zero-width
negative lookbehind for a word character. -/
def compEnd (s : List Char) (i : Nat) : Option Nat :=
  match (if litAt s i (strL "<<") then compBodyTailed s (i + 2) else none) with
  | some e => some e
  | none =>
    match
      (if s.get? i = some '<' then
        let w := spaceRun s (i + 1)
        if s.get? (i + 1 + w) = some '<' then compBodyTailed s (i + 2 + w) else none
      else none) with
    | some e => some e
    | none =>
      let lb : Bool :=
        match i with
        | 0 => true
        | j + 1 =>
          match s.get? j with
          | some c => !isWordPy c
          | none => true
      if lb then compBodyTailed s i else none

/-! ### Scanning and substitution

finditer and sub of the regex engine: start positions are tried left to
right; after a match scanning resumes at its end.  All patterns above only
produce non-empty matches, so the guard on the match end and the fuel are
never exercised by reachable calls. -/

/-- Leftmost non-overlapping scan, collecting match spans. -/
def scanAux (m : List Char → Nat → Option Nat) (s : List Char) : Nat → Nat → List (Nat × Nat)
  | 0, _ => []
  | fuel + 1, i =>
    if i < s.length then
      match m s i with
      | some e => if i < e then (i, e) :: scanAux m s fuel e else scanAux m s fuel (i + 1)
      | none => scanAux m s fuel (i + 1)
    else []

/-- All match spans of a matcher over a text, in order of appearance. -/
def scanM (m : List Char → Nat → Option Nat) (s : List Char) : List (Nat × Nat) :=
  scanAux m s (s.length + 1) 0

/-- Matched texts of a scan, in order of appearance (findall on a pattern
without capturing groups). -/
def scanTexts (m : List Char → Nat → Option Nat) (s : List Char) : List (List Char) :=
  (scanM m s).map (fun p => slice s p.1 p.2)

/-- State-threading map over a list, returning the final state and the
list of produced values. -/
def mapAccumL {σ α β : Type} (f : σ → α → σ × β) : σ → List α → σ × List β
  | st, [] => (st, [])
  | st, a :: as =>
    let pr := f st a
    let r2 := mapAccumL f pr.1 as
    (r2.1, pr.2 :: r2.2)

/-- Regex substitution with a state-threading replacement function,
scanning from a position with fuel.  Characters outside matches are copied
verbatim; each match span is handed to the replacement function. -/
def reSubAux {σ : Type} (m : List Char → Nat → Option Nat)
    (f : σ → List Char → σ × List Char) (s : List Char) :
    Nat → Nat → σ → σ × List Char
  | 0, i, st => (st, s.drop i)
  | fuel + 1, i, st =>
    if h : i < s.length then
      match m s i with
      | some e =>
        if i < e then
          let pr := f st (slice s i e)
          let r2 := reSubAux m f s fuel e pr.1
          (r2.1, pr.2 ++ r2.2)
        else
          let r2 := reSubAux m f s fuel (i + 1) st
          (r2.1, s.get ⟨i, h⟩ :: r2.2)
      | none =>
        let r2 := reSubAux m f s fuel (i + 1) st
        (r2.1, s.get ⟨i, h⟩ :: r2.2)
    else (st, s.drop i)

/-- Regex substitution over a whole text (sub with a replacement
function). -/
def reSub {σ : Type} (m : List Char → Nat → Option Nat)
    (f : σ → List Char → σ × List Char) (st : σ) (s : List Char) : σ × List Char :=
  reSubAux m f s (s.length + 1) 0 st

/-- Reassembly of a text from match spans and replacement texts: the gaps
between consecutive spans are copied from the source verbatim. -/
def rebuild (s : List Char) : Nat → List ((Nat × Nat) × List Char) → List Char
  | i, [] => s.drop i
  | i, (p, r) :: rest => slice s i p.1 ++ r ++ rebuild s p.2 rest

/-! ### Model of the v4 scanner (extract placeholders with repair) -/

/-- A scanned occurrence: span, emitted text and classification (true for a
well-formed match of the correct pattern, false for a repaired damaged
match). -/
structure Occ where
  start : Nat
  stop : Nat
  text : List Char
  wf : Bool
deriving DecidableEq, Repr

/-- Leftmost equation-number search of the repairers: the Eqn keyword
(case-insensitive) followed by at least one digit; returns the maximal
digit run (search for the number group). -/
def searchEqnAux (s : List Char) : Nat → Nat → Option (List Char)
  | 0, _ => none
  | fuel + 1, i =>
    if litCIAt s i (strL "Eqn") && decide (0 < digitRun s (i + 3)) then
      some (slice s (i + 3) (i + 3 + digitRun s (i + 3)))
    else searchEqnAux s fuel (i + 1)

/-- Leftmost equation number in a text, if any. -/
def searchEqn (s : List Char) : Option (List Char) :=
  searchEqnAux s (s.length + 1) 0

/-- Repaired text built by the v4 scanner for a damaged occurrence: the
canonical opening, the extracted number, the eps extension when the
damaged text contains one, the canonical closing; when the damaged text
ends in a comma, the two closing brackets are cut off and a comma plus
closing brackets are appended (the source performs exactly this slicing). -/
def fixTextV4 (num : List Char) (eps comma : Bool) : List Char :=
  let f := strL "<<Eqn" ++ num ++ (if eps then strL ".eps" else []) ++ strL ">>"
  if comma then f.take (f.length - 2) ++ strL ",>>" else f

/-- Overlap test of the v4 scanner between a new span and an already
recorded span. -/
def overlapsB (st en a b : Nat) : Bool := !(decide (en ≤ a) || decide (b ≤ st))

/-- Repaired occurrence for a damaged match span, when the matched text
carries a parsable equation number. -/
def fixOcc (s : List Char) (p : Nat × Nat) : Option Occ :=
  let orig := slice s p.1 p.2
  match searchEqn orig with
  | none => none
  | some num =>
    some ⟨p.1, p.2, fixTextV4 num (hasSubCI orig (strL ".eps")) (endsComma orig), false⟩

/-- One step of the v4 scanner's damaged-pattern incorporation: a damaged
match is dropped when its span overlaps any already recorded occurrence,
and appended (repaired) otherwise. -/
def addOne (s : List Char) (acc : List Occ) (p : Nat × Nat) : List Occ :=
  if acc.any (fun o => overlapsB p.1 p.2 o.start o.stop) then acc
  else
    match fixOcc s p with
    | none => acc
    | some o => acc ++ [o]

/-- Ordering key of the final sort of the v4 scanner. -/
def occLe (a b : Occ) : Prop := a.start ≤ b.start

instance : DecidableRel occLe := fun a b => Nat.decLe a.start b.start

instance : IsTotal Occ occLe := ⟨fun a b => Nat.le_total a.start b.start⟩

instance : IsTrans Occ occLe := ⟨fun _ _ _ => Nat.le_trans⟩

/-- The v4 scanner over one text block: matches of the correct pattern are
collected first, then each damaged pattern contributes the matches whose
spans do not overlap anything recorded so far (repaired), and the result
is sorted by start offset. -/
def extractOccs (s : List Char) : List Occ :=
  let correct := (scanM correctEnd s).map (fun p => Occ.mk p.1 p.2 (slice s p.1 p.2) true)
  let allFound :=
    [d1End, d2End, d3End, d4End].foldl
      (fun acc m => (scanM m s).foldl (addOne s) acc) correct
  List.insertionSort occLe allFound

/-- Placeholder texts returned by the v4 scanner for one text block. -/
def extractTexts (s : List Char) : List (List Char) := (extractOccs s).map (·.text)

/-! ### Model of the v4 restorer (process document) -/

/-- Replacement state of the v4 restorer: the running occurrence index and
the count of performed replacements.  The final index is the
found-in-translation statistic. -/
structure RepSt where
  idx : Nat
  repl : Nat
deriving DecidableEq, Repr

/-- The v4 substitution callback: an occurrence whose index is below the
canonical sequence length is replaced by the canonical entry at that index
and both counters advance; any later occurrence is returned unchanged
while the index still advances. -/
def replacePh (os : List (List Char)) (st : RepSt) (matched : List Char) :
    RepSt × List Char :=
  if h : st.idx < os.length then (⟨st.idx + 1, st.repl + 1⟩, os.get ⟨st.idx, h⟩)
  else (⟨st.idx + 1, st.repl⟩, matched)

/-- The v4 per-text substitution: the comprehensive pattern drives the
substitution callback over one text block. -/
def processTextV4 (os : List (List Char)) (st : RepSt) (s : List Char) :
    RepSt × List Char :=
  reSub compEnd (replacePh os) st s

/-- The v4 per-block step: a block is only processed when it contains the
Eqn keyword as a case-sensitive substring (the guard of the source's
traversal loops); otherwise it is left untouched. -/
def processBlockV4 (os : List (List Char)) (st : RepSt) (s : List Char) :
    RepSt × List Char :=
  if hasSub s (strL "Eqn") then processTextV4 os st s else (st, s)

/-- The v4 document pass: all text blocks in traversal order, threading the
replacement state. -/
def processDocV4 (os : List (List Char)) (blocks : List (List Char)) :
    RepSt × List (List Char) :=
  mapAccumL (processBlockV4 os) ⟨0, 0⟩ blocks

/-- Comprehensive-pattern matches of one block as seen by the v4 document
pass (empty for blocks skipped by the keyword guard). -/
def blockCandidates (s : List Char) : List (List Char) :=
  if hasSub s (strL "Eqn") then scanTexts compEnd s else []

/-- The candidate sequence of a translated document under the v4 restorer:
per-block matches concatenated in traversal order. -/
def docCandidates (blocks : List (List Char)) : List (List Char) :=
  (blocks.map blockCandidates).flatten

/-- Replacement texts emitted for the candidate sequence of a document. -/
def docReplacements (os : List (List Char)) (blocks : List (List Char)) :
    List (List Char) :=
  (mapAccumL (replacePh os) ⟨0, 0⟩ (docCandidates blocks)).2

/-- Outcome of the v4 document-level run. -/
inductive V4Out where
  | fail : V4Out
  | ok (blocks : List (List Char)) (replaced found avail : Nat) : V4Out
deriving DecidableEq, Repr

/-- The v4 document run: the canonical sequence is extracted from the
original's blocks with the v4 scanner; when it is empty the whole document
fails with an extraction error, otherwise the substitution pass runs and
reports the replaced count, the found-in-translation count and the number
of available canonical entries. -/
def v4ProcessDocument (origBlocks transBlocks : List (List Char)) : V4Out :=
  let os := (origBlocks.map extractTexts).flatten
  if os = [] then V4Out.fail
  else
    let pr := processDocV4 os transBlocks
    V4Out.ok pr.2 pr.1.repl pr.1.idx os.length

/-! ### Model of the batch restorer (binary patch strategy) -/

/-- Leftmost occurrence search of a pattern inside a text (find). -/
def substrAt (s pat : List Char) (i : Nat) : Bool := pat.isPrefixOf (s.drop i)

/-- Search loop for the leftmost occurrence position. -/
def findSubAux (s pat : List Char) : Nat → Nat → Option Nat
  | 0, _ => none
  | fuel + 1, i => if substrAt s pat i then some i else findSubAux s pat fuel (i + 1)

/-- Position of the leftmost occurrence of a pattern, if any. -/
def findSub (s pat : List Char) : Option Nat :=
  findSubAux s pat (s.length + 1) 0

/-- Replacement of the first occurrence of a byte pattern (replace with
count one): the leftmost occurrence is substituted, everything else is
kept. -/
def replaceFirst (s pat rep : List Char) : List Char :=
  match findSub s pat with
  | none => s
  | some i => s.take i ++ rep ++ s.drop (i + pat.length)

/-- Replacement of every occurrence of a byte pattern, left to right,
without rescanning replacements (replace without a count).  The
placeholder patterns are non-empty, so the empty-pattern branch is never
reached by the model's callers. -/
def replAll (pat rep : List Char) : Nat → List Char → List Char
  | 0, s => s
  | fuel + 1, s =>
    if pat ≠ [] ∧ pat.isPrefixOf s then rep ++ replAll pat rep fuel (s.drop pat.length)
    else
      match s with
      | [] => []
      | c :: rest => c :: replAll pat rep fuel rest

/-- Replacement of every occurrence of a pattern in a text. -/
def replaceAll (s pat rep : List Char) : List Char := replAll pat rep s.length s

/-- Deletion of every occurrence of each listed placeholder text, in list
order (the extra-placeholder stripping loop of the batch restorer). -/
def stripAll (raw : List Char) (pats : List (List Char)) : List Char :=
  pats.foldl (fun c p => replaceAll c p []) raw

/-- Sequential first-match replacement loop of the batch restorer: each
pair replaces the first occurrence of its candidate text by its canonical
text in the current content. -/
def applySubs (raw : List Char) (pairs : List (List Char × List Char)) : List Char :=
  pairs.foldl (fun c pr => replaceFirst c pr.1 pr.2) raw

/-- Outcome of the batch document run, mirroring the return paths of the
source: a length-mismatch failure naming both counts, a verbatim copy when
no placeholders exist at all, a stripped copy with the removed count when
only the translation has placeholders, or a patched content with the
substitution pairs and the forced-mode flag. -/
inductive BatchOut where
  | fail (norig ntrans : Nat) : BatchOut
  | copied (content : List Char) : BatchOut
  | strippedExtras (content : List Char) (removed : Nat) : BatchOut
  | replaced (content : List Char) (forced : Bool)
      (pairs : List (List Char × List Char)) : BatchOut
deriving DecidableEq, Repr

/-- The batch document run: canonical texts come from the strict pattern
over the original's extracted text, candidates from the tolerant pattern
over the translation's extracted text; an empty canonical sequence copies
or strips, a length mismatch fails in strict mode and truncates the
candidate list in forced mode, and otherwise the sequential first-match
byte patch runs over the raw content. -/
def processDocB (origText transText raw : List Char) (force : Bool) : BatchOut :=
  let origs := scanTexts strictEnd origText
  let trans := scanTexts robustEnd transText
  if origs = [] then
    if trans = [] then BatchOut.copied raw
    else BatchOut.strippedExtras (stripAll raw trans) trans.length
  else if origs.length ≠ trans.length then
    if force then
      let trans2 := trans.take origs.length
      BatchOut.replaced (applySubs raw (trans2.zip origs)) true (trans2.zip origs)
    else BatchOut.fail origs.length trans.length
  else BatchOut.replaced (applySubs raw (trans.zip origs)) false (trans.zip origs)

/-- The batch damage repairer for one matched text: when the match does not
both start with the canonical opening and end with the canonical closing,
the canonical text is rebuilt from the extracted number, the eps flag and
the trailing comma; matches without a parsable number, and already
canonical matches, are returned unchanged. -/
def fixPlaceholderB (original : List Char) : List Char :=
  match searchEqn original with
  | none => original
  | some num =>
    if ¬((strL "<<").isPrefixOf original ∧ (strL ">>").isSuffixOf original) then
      let correct :=
        strL "<<Eqn" ++ num ++
          (if hasSubCI original (strL ".eps") then strL ".eps" else []) ++ strL ">>"
      let correct := if endsComma original then correct ++ strL "," else correct
      if original ≠ correct then correct else original
    else original

/-! ### Model of the document traversals -/

/-- A table cell: its paragraphs top to bottom. -/
structure Cell where
  paras : List (List Char)
deriving DecidableEq, Repr

/-- A table row: its cells left to right. -/
structure Row where
  cells : List Cell
deriving DecidableEq, Repr

/-- A table: its rows top to bottom. -/
structure Table where
  rows : List Row
deriving DecidableEq, Repr

/-- A header or footer: its paragraphs and its tables. -/
structure HdrFtr where
  paras : List (List Char)
  tables : List Table
deriving DecidableEq, Repr

/-- A document section: its header and footer. -/
structure Sect where
  hdr : HdrFtr
  ftr : HdrFtr
deriving DecidableEq, Repr

/-- A document: body paragraphs, body tables and sections. -/
structure Docx where
  paras : List (List Char)
  tables : List Table
  sections : List Sect
deriving DecidableEq, Repr

/-- Accumulating traversal of one cell (paragraphs appended in order). -/
def cellTexts (c : Cell) (acc : List (List Char)) : List (List Char) :=
  c.paras.foldl (fun a p => a ++ [p]) acc

/-- Accumulating traversal of one row (cells left to right). -/
def rowTexts (r : Row) (acc : List (List Char)) : List (List Char) :=
  r.cells.foldl (fun a c => cellTexts c a) acc

/-- Accumulating traversal of one table (rows top to bottom). -/
def tableTexts (t : Table) (acc : List (List Char)) : List (List Char) :=
  t.rows.foldl (fun a r => rowTexts r a) acc

/-- Text-block traversal of the batch restorer (and of the v4 placeholder
extractor): body paragraphs, body tables, then for each section its header
paragraphs followed by its footer paragraphs.  Header and footer tables
are not visited. -/
def getAllTextB (d : Docx) : List (List Char) :=
  let a1 := d.paras.foldl (fun a p => a ++ [p]) []
  let a2 := d.tables.foldl (fun a t => tableTexts t a) a1
  d.sections.foldl
    (fun a sec =>
      sec.ftr.paras.foldl (fun b p => b ++ [p])
        (sec.hdr.paras.foldl (fun b p => b ++ [p]) a)) a2

/-- Text-block traversal of the post-processing cleaner of the translator
script: body paragraphs, body tables, then for each section its header
paragraphs, header tables, footer paragraphs and footer tables. -/
def cleanTraversalD (d : Docx) : List (List Char) :=
  let a1 := d.paras.foldl (fun a p => a ++ [p]) []
  let a2 := d.tables.foldl (fun a t => tableTexts t a) a1
  d.sections.foldl
    (fun a sec =>
      let h1 := sec.hdr.paras.foldl (fun b p => b ++ [p]) a
      let h2 := sec.hdr.tables.foldl (fun b t => tableTexts t b) h1
      let f1 := sec.ftr.paras.foldl (fun b p => b ++ [p]) h2
      sec.ftr.tables.foldl (fun b t => tableTexts t b) f1) a2

/-- Declarative flattening of one table: rows top to bottom, cells left to
right, paragraphs top to bottom. -/
def tableFlat (t : Table) : List (List Char) :=
  (t.rows.map (fun r => (r.cells.map Cell.paras).flatten)).flatten

/-- Declarative form of the batch traversal order. -/
def getAllTextSpec (d : Docx) : List (List Char) :=
  d.paras ++ (d.tables.map tableFlat).flatten ++
    (d.sections.map (fun sec => sec.hdr.paras ++ sec.ftr.paras)).flatten

/-- Declarative form of the cleaner traversal order. -/
def cleanTraversalSpec (d : Docx) : List (List Char) :=
  d.paras ++ (d.tables.map tableFlat).flatten ++
    (d.sections.map (fun sec =>
      sec.hdr.paras ++ (sec.hdr.tables.map tableFlat).flatten ++
        sec.ftr.paras ++ (sec.ftr.tables.map tableFlat).flatten)).flatten

/-! ### Proof-support predicates and plans -/

/-- Match spans that follow each other from a given position: each span
starts no earlier than the running position and ends no earlier than it
starts. -/
def ChainedFrom : Nat → List (Nat × Nat) → Prop
  | _, [] => True
  | i, p :: rest => i ≤ p.1 ∧ p.1 ≤ p.2 ∧ ChainedFrom p.2 rest

/-- Disjointness of two occurrence spans. -/
def disjOcc (a b : Occ) : Prop := b.stop ≤ a.start ∨ a.stop ≤ b.start

/-- Substitution plan over a list of match spans: the replacement function
is threaded through the spans in order and each span is paired with its
replacement text. -/
def subPlan {σ : Type} (f : σ → List Char → σ × List Char) (s : List Char) :
    σ → List (Nat × Nat) → σ × List ((Nat × Nat) × List Char)
  | st, [] => (st, [])
  | st, p :: rest =>
    let pr := f st (slice s p.1 p.2)
    let r2 := subPlan f s pr.1 rest
    (r2.1, (p, pr.2) :: r2.2)

/-- Invariant of the v4 scanner's accumulated occurrence list: the spans
are pairwise disjoint and non-empty, every well-formed match of the
correct pattern is recorded, and no repaired (damaged) occurrence overlaps
a well-formed match. -/
def ExtractInv (s : List Char) (acc : List Occ) : Prop :=
  acc.Pairwise disjOcc ∧ (∀ o ∈ acc, o.start < o.stop) ∧
    (∀ p ∈ scanM correctEnd s, Occ.mk p.1 p.2 (slice s p.1 p.2) true ∈ acc) ∧
    (∀ o ∈ acc, o.wf = false → ∀ p ∈ scanM correctEnd s, p.2 ≤ o.start ∨ o.stop ≤ p.1)

/-- Example document with one body paragraph and one section whose header
contains a table with a single cell paragraph; used to compare the two
traversals. -/
def hfTableDoc : Docx :=
  { paras := [strL "B"]
    tables := []
    sections := [{ hdr := { paras := [], tables := [{ rows := [{ cells := [{ paras := [strL "T"] }] }] }] }
                   ftr := { paras := [], tables := [] } }] }

/-! ### Helper lemmas about slices and chains -/

theorem slice_self (s : List Char) (i : Nat) : slice s i i = [] := by
  simp [slice]

theorem slice_cons (s : List Char) {i a : Nat} (h : i < s.length) (ha : i < a) :
    slice s i a = s.get ⟨i, h⟩ :: slice s (i + 1) a := by
  unfold slice
  rw [List.drop_eq_getElem_cons h]
  have h1 : a - i = (a - (i + 1)) + 1 := by omega
  rw [h1, List.take_succ_cons]
  simp

theorem slice_concat (s : List Char) {i a b : Nat} (hia : i ≤ a) (hab : a ≤ b) :
    slice s i a ++ slice s a b = slice s i b := by
  unfold slice
  have hd : s.drop a = (s.drop i).drop (a - i) := by
    rw [List.drop_drop]
    congr 1
    omega
  rw [hd, ← List.take_add]
  congr 1
  omega

theorem slice_append_drop (s : List Char) {i b : Nat} (h : i ≤ b) :
    slice s i b ++ s.drop b = s.drop i := by
  unfold slice
  have hd : s.drop b = (s.drop i).drop (b - i) := by
    rw [List.drop_drop]
    congr 1
    omega
  rw [hd, List.take_append_drop]

theorem chainedFrom_mono {i j : Nat} {l : List (Nat × Nat)} (hij : i ≤ j)
    (h : ChainedFrom j l) : ChainedFrom i l := by
  cases l with
  | nil => trivial
  | cons p rest =>
    obtain ⟨h1, h2, h3⟩ := h
    exact ⟨Nat.le_trans hij h1, h2, h3⟩

theorem chainedFrom_start_ge {l : List (Nat × Nat)} :
    ∀ {i : Nat}, ChainedFrom i l → ∀ p ∈ l, i ≤ p.1 := by
  induction l with
  | nil => intro i _ p hp; cases hp
  | cons q rest ih =>
    intro i h p hp
    obtain ⟨h1, h2, h3⟩ := h
    cases hp with
    | head => exact h1
    | tail _ hmem => exact Nat.le_trans (Nat.le_trans h1 h2) (ih h3 p hmem)

theorem chainedFrom_pairwise {l : List (Nat × Nat)} :
    ∀ {i : Nat}, ChainedFrom i l → l.Pairwise (fun p q => p.2 ≤ q.1) := by
  induction l with
  | nil => intro i _; exact List.Pairwise.nil
  | cons q rest ih =>
    intro i h
    obtain ⟨_, _, h3⟩ := h
    exact List.Pairwise.cons (fun p hp => chainedFrom_start_ge h3 p hp) (ih h3)

/-! ### Helper lemmas about scanning -/

theorem scanAux_start_ge {m : List Char → Nat → Option Nat} {s : List Char} :
    ∀ fuel i p, p ∈ scanAux m s fuel i → i ≤ p.1 ∧ p.1 < p.2 ∧ p.1 < s.length := by
  intro fuel
  induction fuel with
  | zero => intro i p hp; simp [scanAux] at hp
  | succ fuel ih =>
    intro i p hp
    by_cases h : i < s.length
    · simp only [scanAux, if_pos h] at hp
      cases hm : m s i with
      | some e =>
        simp only [hm] at hp
        by_cases he : i < e
        · rw [if_pos he] at hp
          cases hp with
          | head => exact ⟨Nat.le_refl i, he, h⟩
          | tail _ hmem =>
            obtain ⟨h1, h2, h3⟩ := ih e p hmem
            exact ⟨Nat.le_trans (Nat.le_of_lt he) h1, h2, h3⟩
        · rw [if_neg he] at hp
          obtain ⟨h1, h2, h3⟩ := ih (i + 1) p hp
          exact ⟨Nat.le_trans (Nat.le_succ i) h1, h2, h3⟩
      | none =>
        simp only [hm] at hp
        obtain ⟨h1, h2, h3⟩ := ih (i + 1) p hp
        exact ⟨Nat.le_trans (Nat.le_succ i) h1, h2, h3⟩
    · simp [scanAux, if_neg h] at hp

theorem scanAux_chainedFrom {m : List Char → Nat → Option Nat} {s : List Char} :
    ∀ fuel i, ChainedFrom i (scanAux m s fuel i) := by
  intro fuel
  induction fuel with
  | zero => intro i; simp [scanAux, ChainedFrom]
  | succ fuel ih =>
    intro i
    by_cases h : i < s.length
    · simp only [scanAux, if_pos h]
      cases hm : m s i with
      | some e =>
        simp only [hm]
        by_cases he : i < e
        · rw [if_pos he]
          exact ⟨Nat.le_refl i, Nat.le_of_lt he, ih e⟩
        · rw [if_neg he]
          exact chainedFrom_mono (Nat.le_succ i) (ih (i + 1))
      | none =>
        simp only [hm]
        exact chainedFrom_mono (Nat.le_succ i) (ih (i + 1))
    · simp [scanAux, if_neg h, ChainedFrom]

theorem scanM_chainedFrom (m : List Char → Nat → Option Nat) (s : List Char) :
    ChainedFrom 0 (scanM m s) :=
  scanAux_chainedFrom (s.length + 1) 0

theorem scanM_mem (m : List Char → Nat → Option Nat) (s : List Char) {p : Nat × Nat}
    (hp : p ∈ scanM m s) : p.1 < p.2 ∧ p.1 < s.length := by
  obtain ⟨_, h2, h3⟩ := scanAux_start_ge (s.length + 1) 0 p hp
  exact ⟨h2, h3⟩

/-! ### Helper lemmas about plans and substitution -/

theorem mapAccumL_cons {σ α β : Type} (f : σ → α → σ × β) (st : σ) (a : α) (as : List α) :
    mapAccumL f st (a :: as) =
      ((mapAccumL f (f st a).1 as).1, (f st a).2 :: (mapAccumL f (f st a).1 as).2) := rfl

theorem mapAccumL_append {σ α β : Type} (f : σ → α → σ × β) :
    ∀ (xs ys : List α) (st : σ),
      mapAccumL f st (xs ++ ys) =
        ((mapAccumL f (mapAccumL f st xs).1 ys).1,
          (mapAccumL f st xs).2 ++ (mapAccumL f (mapAccumL f st xs).1 ys).2) := by
  intro xs
  induction xs with
  | nil => intro ys st; simp [mapAccumL]
  | cons a as ih => intro ys st; simp [mapAccumL_cons, List.cons_append, ih]

theorem subPlan_eq (f : RepSt → List Char → RepSt × List Char) (s : List Char) :
    ∀ (ms : List (Nat × Nat)) (st : RepSt),
      subPlan f s st ms =
        ((mapAccumL f st (ms.map (fun p => slice s p.1 p.2))).1,
          ms.zip (mapAccumL f st (ms.map (fun p => slice s p.1 p.2))).2) := by
  intro ms
  induction ms with
  | nil => intro st; simp [subPlan, mapAccumL, List.zip]
  | cons p rest ih =>
    intro st
    simp only [subPlan, List.map_cons, mapAccumL_cons, ih, List.zip_cons_cons]

theorem subPlan_mem_fst {σ : Type} (f : σ → List Char → σ × List Char) (s : List Char) :
    ∀ (ms : List (Nat × Nat)) (st : σ) (q : (Nat × Nat) × List Char),
      q ∈ (subPlan f s st ms).2 → q.1 ∈ ms := by
  intro ms
  induction ms with
  | nil => intro st q hq; simp [subPlan] at hq
  | cons p rest ih =>
    intro st q hq
    simp only [subPlan, List.mem_cons] at hq
    cases hq with
    | inl h => subst h; exact List.mem_cons_self p rest
    | inr h => exact List.mem_cons_of_mem p (ih _ q h)

theorem zip_map_self {α β : Type} (g : α → β) :
    ∀ l : List α, l.zip (l.map g) = l.map (fun a => (a, g a)) := by
  intro l
  induction l with
  | nil => rfl
  | cons a as ih => simp [List.zip_cons_cons, ih]

theorem rebuild_gap (s : List Char) {i : Nat} (h : i < s.length)
    (l : List ((Nat × Nat) × List Char)) (hl : ∀ q ∈ l, i + 1 ≤ q.1.1) :
    rebuild s i l = s.get ⟨i, h⟩ :: rebuild s (i + 1) l := by
  cases l with
  | nil =>
    show s.drop i = s.get ⟨i, h⟩ :: s.drop (i + 1)
    rw [List.get_eq_getElem]
    exact List.drop_eq_getElem_cons h
  | cons q rest =>
    have hq : i + 1 ≤ q.1.1 := hl q (List.mem_cons_self q rest)
    show slice s i q.1.1 ++ q.2 ++ rebuild s q.1.2 rest =
      s.get ⟨i, h⟩ :: (slice s (i + 1) q.1.1 ++ q.2 ++ rebuild s q.1.2 rest)
    rw [slice_cons s h (Nat.lt_of_lt_of_le (Nat.lt_succ_self i) hq)]
    simp

theorem reSubAux_spec {σ : Type} (m : List Char → Nat → Option Nat)
    (f : σ → List Char → σ × List Char) (s : List Char) :
    ∀ (fuel i : Nat) (st : σ),
      reSubAux m f s fuel i st =
        ((subPlan f s st (scanAux m s fuel i)).1,
          rebuild s i (subPlan f s st (scanAux m s fuel i)).2) := by
  intro fuel
  induction fuel with
  | zero => intro i st; simp [reSubAux, scanAux, subPlan, rebuild]
  | succ fuel ih =>
    intro i st
    by_cases h : i < s.length
    · simp only [reSubAux, scanAux, dif_pos h, if_pos h]
      cases hm : m s i with
      | some e =>
        simp only
        by_cases he : i < e
        · rw [if_pos he, if_pos he]
          simp only [subPlan, ih e]
          show _ = (_, slice s i i ++ _ ++ _)
          simp [slice_self]
        · rw [if_neg he, if_neg he]
          rw [ih (i + 1) st]
          refine Prod.ext rfl ?_
          show s.get ⟨i, h⟩ :: rebuild s (i + 1) _ = rebuild s i _
          rw [rebuild_gap s h _ ?_]
          intro q hq
          have hfst := subPlan_mem_fst f s _ st q hq
          exact (scanAux_start_ge fuel (i + 1) q.1 hfst).1
      | none =>
        simp only
        rw [ih (i + 1) st]
        refine Prod.ext rfl ?_
        show s.get ⟨i, h⟩ :: rebuild s (i + 1) _ = rebuild s i _
        rw [rebuild_gap s h _ ?_]
        intro q hq
        have hfst := subPlan_mem_fst f s _ st q hq
        exact (scanAux_start_ge fuel (i + 1) q.1 hfst).1
    · simp [reSubAux, scanAux, dif_neg h, if_neg h, subPlan, rebuild]

theorem reSub_spec {σ : Type} (m : List Char → Nat → Option Nat)
    (f : σ → List Char → σ × List Char) (st : σ) (s : List Char) :
    reSub m f st s =
      ((subPlan f s st (scanM m s)).1, rebuild s 0 (subPlan f s st (scanM m s)).2) :=
  reSubAux_spec m f s (s.length + 1) 0 st

/-! ### Helper lemmas about the v4 replacement callback -/

theorem replacePh_emit_take (os : List (List Char)) :
    ∀ (ds : List (List Char)) (k r : Nat), k + ds.length ≤ os.length →
      mapAccumL (replacePh os) ⟨k, r⟩ ds =
        (⟨k + ds.length, r + ds.length⟩, (os.drop k).take ds.length) := by
  intro ds
  induction ds with
  | nil => intro k r _; simp [mapAccumL]
  | cons d rest ih =>
    intro k r hk
    have hklt : k < os.length := by simp at hk; omega
    have hstep : replacePh os ⟨k, r⟩ d = (⟨k + 1, r + 1⟩, os.get ⟨k, hklt⟩) := by
      simp [replacePh, hklt]
    rw [mapAccumL_cons, hstep]
    have hrest : (k + 1) + rest.length ≤ os.length := by simp at hk; omega
    rw [ih (k + 1) r.succ hrest]
    have htake : (os.drop k).take (rest.length + 1) =
        os.get ⟨k, hklt⟩ :: (os.drop (k + 1)).take rest.length := by
      rw [List.drop_eq_getElem_cons hklt]
      rw [List.take_succ_cons, List.get_eq_getElem]
    simp only [List.length_cons, htake]
    refine Prod.ext ?_ rfl
    show RepSt.mk (k + 1 + rest.length) (r + 1 + rest.length) =
      RepSt.mk (k + (rest.length + 1)) (r + (rest.length + 1))
    congr 1 <;> omega

theorem replacePh_emit_beyond (os : List (List Char)) :
    ∀ (ds : List (List Char)) (k r : Nat), os.length ≤ k →
      mapAccumL (replacePh os) ⟨k, r⟩ ds = (⟨k + ds.length, r⟩, ds) := by
  intro ds
  induction ds with
  | nil => intro k r _; simp [mapAccumL]
  | cons d rest ih =>
    intro k r hk
    have hnotk : ¬ k < os.length := by omega
    have hstep : replacePh os ⟨k, r⟩ d = (⟨k + 1, r⟩, d) := by
      simp [replacePh, hnotk]
    rw [mapAccumL_cons, hstep, ih (k + 1) r (by omega)]
    refine Prod.ext ?_ rfl
    show RepSt.mk (k + 1 + rest.length) r = RepSt.mk (k + (rest.length + 1)) r
    congr 1
    omega

/-! ### Helper lemma about rebuilding a text from its own slices -/

theorem rebuild_self (s : List Char) :
    ∀ (ms : List (Nat × Nat)) (i : Nat), ChainedFrom i ms →
      rebuild s i (ms.map (fun p => (p, slice s p.1 p.2))) = s.drop i := by
  intro ms
  induction ms with
  | nil => intro i _; rfl
  | cons p rest ih =>
    intro i hc
    obtain ⟨h1, h2, h3⟩ := hc
    show slice s i p.1 ++ slice s p.1 p.2 ++ rebuild s p.2 _ = s.drop i
    rw [ih p.2 h3, List.append_assoc, slice_append_drop s h2, slice_append_drop s h1]

/-! ### Helper lemmas about first-occurrence replacement -/

theorem findSubAux_spec (s pat : List Char) :
    ∀ (fuel i k : Nat), findSubAux s pat fuel i = some k →
      i ≤ k ∧ substrAt s pat k = true ∧
        ∀ j, i ≤ j → j < k → substrAt s pat j = false := by
  intro fuel
  induction fuel with
  | zero => intro i k h; simp [findSubAux] at h
  | succ fuel ih =>
    intro i k h
    by_cases hs : substrAt s pat i
    · simp only [findSubAux, if_pos hs, Option.some.injEq] at h
      subst h
      exact ⟨Nat.le_refl i, hs, fun j h1 h2 => absurd (Nat.lt_of_le_of_lt h1 h2) (Nat.lt_irrefl i)⟩
    · simp only [findSubAux, if_neg hs] at h
      obtain ⟨h1, h2, h3⟩ := ih (i + 1) k h
      refine ⟨by omega, h2, fun j hj1 hj2 => ?_⟩
      by_cases hji : j = i
      · subst hji; exact Bool.eq_false_iff.mpr hs
      · exact h3 j (by omega) hj2

theorem replaceFirst_of_findSub {s pat : List Char} {i : Nat}
    (h : findSub s pat = some i) (rep : List Char) :
    replaceFirst s pat rep = s.take i ++ rep ++ s.drop (i + pat.length) := by
  simp [replaceFirst, h]

theorem substrAt_decomp {s pat : List Char} {i : Nat} (h : substrAt s pat i = true) :
    s.drop i = pat ++ s.drop (i + pat.length) := by
  have hp : pat <+: s.drop i := List.isPrefixOf_iff_prefix.mp h
  obtain ⟨t, ht⟩ := hp
  have hdrop : s.drop (i + pat.length) = t := by
    have : (s.drop i).drop pat.length = t := by rw [← ht]; simp
    rw [← this, List.drop_drop, Nat.add_comm]
  rw [hdrop, ht]

theorem replaceFirst_self (s x : List Char) : replaceFirst s x x = s := by
  cases hf : findSub s x with
  | none => simp [replaceFirst, hf]
  | some i =>
    obtain ⟨_, hsub, _⟩ := findSubAux_spec s x (s.length + 1) 0 i hf
    rw [replaceFirst_of_findSub hf, List.append_assoc, ← substrAt_decomp hsub,
      List.take_append_drop]

theorem applySubs_self : ∀ (cs : List (List Char)) (raw : List Char),
    applySubs raw (cs.zip cs) = raw := by
  intro cs
  induction cs with
  | nil => intro raw; rfl
  | cons c rest ih =>
    intro raw
    show applySubs (replaceFirst raw c c) (rest.zip rest) = raw
    rw [replaceFirst_self, ih]

/-! ### Helper lemmas about the traversals -/

theorem foldl_snoc {β : Type} : ∀ (l : List β) (acc : List β),
    l.foldl (fun a p => a ++ [p]) acc = acc ++ l := by
  intro l
  induction l with
  | nil => intro acc; simp
  | cons p rest ih => intro acc; simp [ih]

theorem foldl_grow {α β : Type} (g : List β → α → List β) (h : α → List β)
    (hg : ∀ acc x, g acc x = acc ++ h x) :
    ∀ (l : List α) (acc : List β), l.foldl g acc = acc ++ (l.map h).flatten := by
  intro l
  induction l with
  | nil => intro acc; simp
  | cons x rest ih => intro acc; simp [hg, ih, List.append_assoc]

theorem cellTexts_eq (c : Cell) (acc : List (List Char)) :
    cellTexts c acc = acc ++ c.paras := foldl_snoc c.paras acc

theorem rowTexts_eq (r : Row) (acc : List (List Char)) :
    rowTexts r acc = acc ++ (r.cells.map Cell.paras).flatten :=
  foldl_grow _ Cell.paras (fun a c => cellTexts_eq c a) r.cells acc

theorem tableTexts_eq (t : Table) (acc : List (List Char)) :
    tableTexts t acc = acc ++ tableFlat t := by
  unfold tableTexts tableFlat
  exact foldl_grow _ _ (fun a r => rowTexts_eq r a) t.rows acc

/-! ### Helper lemmas about the v4 scanner invariant -/

theorem overlapsB_false_iff {st en a b : Nat} :
    overlapsB st en a b = false ↔ (en ≤ a ∨ b ≤ st) := by
  simp only [overlapsB, Bool.not_eq_false', Bool.or_eq_true, decide_eq_true_eq]

theorem disjOcc_symm : ∀ {a b : Occ}, disjOcc a b → disjOcc b a := by
  intro a b h
  cases h with
  | inl h => exact Or.inr h
  | inr h => exact Or.inl h

theorem fixOcc_shape {s : List Char} {p : Nat × Nat} {o : Occ}
    (h : fixOcc s p = some o) : o.start = p.1 ∧ o.stop = p.2 ∧ o.wf = false := by
  simp only [fixOcc] at h
  cases hs : searchEqn (slice s p.1 p.2) with
  | none => simp only [hs] at h; cases h
  | some num =>
    simp only [hs, Option.some.injEq] at h
    subst h
    exact ⟨rfl, rfl, rfl⟩

theorem addOne_inv {s : List Char} {acc : List Occ} {p : Nat × Nat}
    (hp : p.1 < p.2) (hinv : ExtractInv s acc) : ExtractInv s (addOne s acc p) := by
  obtain ⟨hpw, hlt, hcorr, hdam⟩ := hinv
  unfold addOne
  by_cases hany : acc.any (fun o => overlapsB p.1 p.2 o.start o.stop)
  · rw [if_pos hany]; exact ⟨hpw, hlt, hcorr, hdam⟩
  · rw [if_neg hany]
    cases hfix : fixOcc s p with
    | none => exact ⟨hpw, hlt, hcorr, hdam⟩
    | some o =>
      obtain ⟨ho1, ho2, ho3⟩ := fixOcc_shape hfix
      have hnool : ∀ a ∈ acc, p.2 ≤ a.start ∨ a.stop ≤ p.1 := by
        intro a ha
        have := (List.any_eq_false).mp (Bool.eq_false_iff.mpr hany) a ha
        exact overlapsB_false_iff.mp (Bool.eq_false_iff.mpr this)
      constructor
      · rw [List.pairwise_append]
        refine ⟨hpw, List.pairwise_singleton _ o, ?_⟩
        intro a ha o' ho'
        rw [List.mem_singleton] at ho'
        subst ho'
        rw [disjOcc, ho1, ho2]
        exact hnool a ha
      constructor
      · intro o' ho'
        rw [List.mem_append, List.mem_singleton] at ho'
        cases ho' with
        | inl h => exact hlt o' h
        | inr h => subst h; rw [ho1, ho2]; exact hp
      constructor
      · intro q hq
        exact List.mem_append_left _ (hcorr q hq)
      · intro o' ho' hwf q hq
        rw [List.mem_append, List.mem_singleton] at ho'
        cases ho' with
        | inl h => exact hdam o' h hwf q hq
        | inr h =>
          subst h
          have hqmem := hcorr q hq
          have := hnool _ hqmem
          rw [ho1, ho2]
          cases this with
          | inl h2 => exact Or.inr h2
          | inr h2 => exact Or.inl h2

theorem foldl_addOne_inv {s : List Char} :
    ∀ (ps : List (Nat × Nat)) (acc : List Occ), (∀ p ∈ ps, p.1 < p.2) →
      ExtractInv s acc → ExtractInv s (ps.foldl (addOne s) acc) := by
  intro ps
  induction ps with
  | nil => intro acc _ hinv; exact hinv
  | cons p rest ih =>
    intro acc hps hinv
    exact ih (addOne s acc p)
      (fun q hq => hps q (List.mem_cons_of_mem p hq))
      (addOne_inv (hps p (List.mem_cons_self p rest)) hinv)

theorem matcherFold_inv {s : List Char} :
    ∀ (L : List (List Char → Nat → Option Nat)) (acc : List Occ), ExtractInv s acc →
      ExtractInv s (L.foldl (fun acc m => (scanM m s).foldl (addOne s) acc) acc) := by
  intro L
  induction L with
  | nil => intro acc hinv; exact hinv
  | cons m rest ih =>
    intro acc hinv
    exact ih _ (foldl_addOne_inv (scanM m s) acc
      (fun p hp => (scanM_mem m s hp).1) hinv)

theorem init_inv (s : List Char) :
    ExtractInv s ((scanM correctEnd s).map
      (fun p => Occ.mk p.1 p.2 (slice s p.1 p.2) true)) := by
  refine ⟨?_, ?_, ?_, ?_⟩
  · rw [List.pairwise_map]
    have hpw := chainedFrom_pairwise (scanM_chainedFrom correctEnd s)
    exact hpw.imp (fun h => Or.inr h)
  · intro o ho
    rw [List.mem_map] at ho
    obtain ⟨p, hp, hpo⟩ := ho
    subst hpo
    exact (scanM_mem correctEnd s hp).1
  · intro p hp
    exact List.mem_map_of_mem _ hp
  · intro o ho hwf q hq
    rw [List.mem_map] at ho
    obtain ⟨p, _, hpo⟩ := ho
    subst hpo
    simp at hwf

theorem extractOccs_inv (s : List Char) : ExtractInv s (extractOccs s) := by
  have hbase := matcherFold_inv (s := s) [d1End, d2End, d3End, d4End] _ (init_inv s)
  obtain ⟨hpw, hlt, hcorr, hdam⟩ := hbase
  have hperm := List.perm_insertionSort occLe
    ([d1End, d2End, d3End, d4End].foldl
      (fun acc m => (scanM m s).foldl (addOne s) acc)
      ((scanM correctEnd s).map (fun p => Occ.mk p.1 p.2 (slice s p.1 p.2) true)))
  show ExtractInv s (List.insertionSort occLe _)
  refine ⟨?_, ?_, ?_, ?_⟩
  · exact (hperm.pairwise_iff (fun h => disjOcc_symm h)).mpr hpw
  · intro o ho
    exact hlt o (hperm.mem_iff.mp ho)
  · intro p hp
    exact hperm.mem_iff.mpr (hcorr p hp)
  · intro o ho hwf q hq
    exact hdam o (hperm.mem_iff.mp ho) hwf q hq

theorem extractOccs_sorted (s : List Char) :
    (extractOccs s).Pairwise occLe :=
  List.sorted_insertionSort occLe _

/-! ### Helper lemmas about the v4 document pass -/

theorem docCandidates_nil : docCandidates [] = [] := rfl

theorem docCandidates_cons (b : List Char) (bs : List (List Char)) :
    docCandidates (b :: bs) = blockCandidates b ++ docCandidates bs := by
  simp [docCandidates]

theorem processTextV4_spec (os : List (List Char)) (st : RepSt) (s : List Char) :
    processTextV4 os st s =
      ((subPlan (replacePh os) s st (scanM compEnd s)).1,
        rebuild s 0 (subPlan (replacePh os) s st (scanM compEnd s)).2) :=
  reSub_spec compEnd (replacePh os) st s

theorem processTextV4_self (os : List (List Char)) (k r : Nat) (s : List Char)
    (hk : k + (scanTexts compEnd s).length ≤ os.length)
    (hself : (os.drop k).take (scanTexts compEnd s).length = scanTexts compEnd s) :
    processTextV4 os ⟨k, r⟩ s =
      (⟨k + (scanTexts compEnd s).length, r + (scanTexts compEnd s).length⟩, s) := by
  rw [processTextV4_spec, subPlan_eq]
  have hms : (scanM compEnd s).map (fun p => slice s p.1 p.2) = scanTexts compEnd s := rfl
  rw [hms, replacePh_emit_take os (scanTexts compEnd s) k r hk, hself]
  have hzip : (scanM compEnd s).zip (scanTexts compEnd s) =
      (scanM compEnd s).map (fun p => (p, slice s p.1 p.2)) := by
    rw [← hms]
    exact zip_map_self _ (scanM compEnd s)
  rw [hzip, rebuild_self s (scanM compEnd s) 0 (scanM_chainedFrom compEnd s)]
  simp [scanTexts]

theorem processDocV4_self_aux (os : List (List Char)) :
    ∀ (blocks : List (List Char)) (k r : Nat),
      k + (docCandidates blocks).length ≤ os.length →
      (os.drop k).take (docCandidates blocks).length = docCandidates blocks →
      mapAccumL (processBlockV4 os) ⟨k, r⟩ blocks =
        (⟨k + (docCandidates blocks).length, r + (docCandidates blocks).length⟩,
          blocks) := by
  intro blocks
  induction blocks with
  | nil => intro k r _ _; simp [mapAccumL, docCandidates_nil]
  | cons b bs ih =>
    intro k r hk hself
    rw [docCandidates_cons] at hk hself ⊢
    by_cases hb : hasSub b (strL "Eqn")
    · have hbc : blockCandidates b = scanTexts compEnd b := by
        simp [blockCandidates, hb]
      rw [hbc] at hk hself ⊢
      have hn1 : (scanTexts compEnd b).length + (docCandidates bs).length =
          (scanTexts compEnd b ++ docCandidates bs).length := by simp
      have hlen1 : ((os.drop k).take (scanTexts compEnd b).length).length =
          (scanTexts compEnd b).length := by
        rw [List.length_take, List.length_drop]
        simp only [List.length_append] at hk
        omega
      have hsplit : (os.drop k).take (scanTexts compEnd b).length ++
          ((os.drop k).drop (scanTexts compEnd b).length).take (docCandidates bs).length =
          scanTexts compEnd b ++ docCandidates bs := by
        rw [← List.take_add]
        simpa [List.length_append] using hself
      obtain ⟨h1, h2⟩ := List.append_inj hsplit hlen1
      have hdd : (os.drop k).drop (scanTexts compEnd b).length =
          os.drop (k + (scanTexts compEnd b).length) := by
        rw [List.drop_drop, Nat.add_comm]
      rw [hdd] at h2
      have hk1 : k + (scanTexts compEnd b).length ≤ os.length := by
        simp only [List.length_append] at hk
        omega
      have hstep : processBlockV4 os ⟨k, r⟩ b =
          (⟨k + (scanTexts compEnd b).length, r + (scanTexts compEnd b).length⟩, b) := by
        unfold processBlockV4
        rw [if_pos hb]
        exact processTextV4_self os k r b hk1 h1
      rw [mapAccumL_cons, hstep]
      have hk2 : (k + (scanTexts compEnd b).length) + (docCandidates bs).length ≤
          os.length := by
        simp only [List.length_append] at hk
        omega
      rw [ih (k + (scanTexts compEnd b).length) (r + (scanTexts compEnd b).length) hk2 h2]
      simp only [List.length_append]
      refine Prod.ext ?_ rfl
      show RepSt.mk _ _ = RepSt.mk _ _
      congr 1 <;> omega
    · have hbc : blockCandidates b = [] := by simp [blockCandidates, hb]
      rw [hbc] at hk hself ⊢
      simp only [List.nil_append, List.length_nil, Nat.zero_add] at hk hself ⊢
      have hstep : processBlockV4 os ⟨k, r⟩ b = (⟨k, r⟩, b) := by
        unfold processBlockV4
        rw [if_neg hb]
      rw [mapAccumL_cons, hstep, ih k r hk hself]

theorem foldl_tables (ts : List Table) (acc : List (List Char)) :
    ts.foldl (fun a t => tableTexts t a) acc = acc ++ (ts.map tableFlat).flatten :=
  foldl_grow _ tableFlat (fun a t => tableTexts_eq t a) ts acc

theorem foldl_sections_batch (ss : List Sect) (acc : List (List Char)) :
    ss.foldl
        (fun a sec =>
          sec.ftr.paras.foldl (fun b p => b ++ [p])
            (sec.hdr.paras.foldl (fun b p => b ++ [p]) a)) acc =
      acc ++ (ss.map (fun sec => sec.hdr.paras ++ sec.ftr.paras)).flatten :=
  foldl_grow _ _
    (fun a sec => by rw [foldl_snoc, foldl_snoc, List.append_assoc]) ss acc

theorem foldl_sections_clean (ss : List Sect) (acc : List (List Char)) :
    ss.foldl
        (fun a sec =>
          sec.ftr.tables.foldl (fun b t => tableTexts t b)
            (sec.ftr.paras.foldl (fun b p => b ++ [p])
              (sec.hdr.tables.foldl (fun b t => tableTexts t b)
                (sec.hdr.paras.foldl (fun b p => b ++ [p]) a)))) acc =
      acc ++ (ss.map (fun sec =>
        sec.hdr.paras ++ (sec.hdr.tables.map tableFlat).flatten ++
          sec.ftr.paras ++ (sec.ftr.tables.map tableFlat).flatten)).flatten :=
  foldl_grow _ _
    (fun a sec => by
      rw [foldl_snoc, foldl_tables, foldl_snoc, foldl_tables]
      simp [List.append_assoc]) ss acc

/-! ### Claim theorems -/

/-- C1: for every canonical sequence and candidate sequence of equal
non-zero length, the positional reconciliation of the v4 restorer emits,
for the candidate occurrence at each index i, exactly the canonical entry
at index i — the original's exact text, eps-flag and comma included —
irrespective of what any candidate occurrence looked like (the statement
quantifies over all translated documents, hence over all candidate
contents).  Together with the frame theorem for C9, the emitted entry is
what lands in the candidate occurrence's span. -/
theorem v4_positional_rewrite (os : List (List Char)) (blocks : List (List Char))
    (hlen : (docCandidates blocks).length = os.length) (_hne : os ≠ []) :
    docReplacements os blocks = os := by
  have h0 : 0 + (docCandidates blocks).length ≤ os.length := by omega
  unfold docReplacements
  rw [replacePh_emit_take os _ 0 0 h0]
  simp [hlen]

/-- Witness for C1: the spec's own positional example — canonical sequence
of three well-formed placeholders against three damaged candidates. -/
theorem v4_positional_rewrite_case :
    docReplacements [strL "<<Eqn1>>", strL "<<Eqn2.eps>>", strL "<<Eqn3>>"]
        [strL "Eqn1.eps>> <<Eqn2 EqN3>>"] =
      [strL "<<Eqn1>>", strL "<<Eqn2.eps>>", strL "<<Eqn3>>"] :=
  v4_positional_rewrite _ _ (by decide) (by decide)

/-- C2: with a non-empty canonical sequence and differing lengths, the
batch restorer fails the document in strict mode with an error naming both
counts and producing no output content, while forced mode proceeds on the
candidate list truncated to the canonical length — the substitution pairs
number exactly the minimum of the two lengths — with the forced-mode flag
reported. -/
theorem batch_length_mismatch_modes (origText transText raw : List Char)
    (hne : scanTexts strictEnd origText ≠ [])
    (hmm : (scanTexts strictEnd origText).length ≠ (scanTexts robustEnd transText).length) :
    processDocB origText transText raw false =
      BatchOut.fail (scanTexts strictEnd origText).length
        (scanTexts robustEnd transText).length ∧
    processDocB origText transText raw true =
      BatchOut.replaced
        (applySubs raw
          (((scanTexts robustEnd transText).take (scanTexts strictEnd origText).length).zip
            (scanTexts strictEnd origText)))
        true
        (((scanTexts robustEnd transText).take (scanTexts strictEnd origText).length).zip
          (scanTexts strictEnd origText)) ∧
    (((scanTexts robustEnd transText).take (scanTexts strictEnd origText).length).zip
        (scanTexts strictEnd origText)).length =
      min (scanTexts strictEnd origText).length (scanTexts robustEnd transText).length := by
  refine ⟨?_, ?_, ?_⟩
  · simp only [processDocB]
    rw [if_neg hne, if_pos hmm]
    simp
  · simp only [processDocB]
    rw [if_neg hne, if_pos hmm]
    simp
  · rw [List.length_zip, List.length_take]
    omega

/-- Witness for C2: canonical length three against candidate length two. -/
theorem batch_length_mismatch_modes_case :
    processDocB (strL "<<Eqn1>> <<Eqn2>> <<Eqn3>>") (strL "xEqn1y xEqn2y")
        (strL "xEqn1y xEqn2y") false = BatchOut.fail 3 2 :=
  ((batch_length_mismatch_modes (strL "<<Eqn1>> <<Eqn2>> <<Eqn3>>")
    (strL "xEqn1y xEqn2y") (strL "xEqn1y xEqn2y") (by decide) (by decide)).1).trans
    (by decide)

/-- Counterexample for C3: the v4 restorer does not return a
no-placeholders success result on an empty canonical sequence — it fails
the whole document with an extraction error, even when the translated
document is clean.  The original block here yields an empty canonical
sequence, yet the run returns the failure outcome instead of a success
copy. -/
theorem v4_empty_canonical_fails :
    ([strL "hello world"].map extractTexts).flatten = ([] : List (List Char)) ∧
    v4ProcessDocument [strL "hello world"] [strL "clean text"] = V4Out.fail :=
  ⟨by decide, by decide⟩

/-- C3 as amended: in the batch restorer the claim holds as stated — an
empty canonical sequence yields a success result in both modes: when the
candidate sequence is also empty the raw content is copied unchanged with
zero substitutions, and when candidate occurrences exist they are stripped
from the content and their count reported.  The v4 restorer instead fails
the whole document whenever the original yields no placeholders. -/
theorem batch_empty_canonical_paths (origText transText raw : List Char) (force : Bool)
    (hempty : scanTexts strictEnd origText = []) :
    (scanTexts robustEnd transText = [] →
      processDocB origText transText raw force = BatchOut.copied raw) ∧
    (scanTexts robustEnd transText ≠ [] →
      processDocB origText transText raw force =
        BatchOut.strippedExtras (stripAll raw (scanTexts robustEnd transText))
          (scanTexts robustEnd transText).length) := by
  constructor
  · intro ht
    simp only [processDocB]
    rw [if_pos hempty, if_pos ht]
  · intro ht
    simp only [processDocB]
    rw [if_pos hempty, if_neg ht]

/-- Witness for C3 as amended: a pair without placeholders is copied
verbatim. -/
theorem batch_empty_canonical_paths_case :
    processDocB (strL "no placeholders") (strL "clean text") (strL "raw bytes") false =
      BatchOut.copied (strL "raw bytes") :=
  (batch_empty_canonical_paths (strL "no placeholders") (strL "clean text")
    (strL "raw bytes") false (by decide)).1 (by decide)

/-- C4 (code bug evaluation): the v4 repairer, handed the damaged
occurrence of equation seven with a trailing comma, emits the text with
the comma inside the closing brackets; re-scanned, that text is classified
as a damaged occurrence (and its repaired form has lost the comma).  The
batch repairer on the same input emits the canonical text with the comma
after the brackets, which re-scans as well-formed with the same number,
eps-flag and comma — the behaviour the claim and the spec describe. -/
theorem v4_comma_repair_not_wellformed :
    extractOccs (strL "Eqn7>>,") = [⟨0, 7, strL "<<Eqn7,>>", false⟩] ∧
    extractOccs (strL "<<Eqn7,>>") = [⟨0, 6, strL "<<Eqn7>>", false⟩] ∧
    fixPlaceholderB (strL "Eqn7>>,") = strL "<<Eqn7>>," ∧
    extractOccs (strL "<<Eqn7>>,") = [⟨0, 9, strL "<<Eqn7>>,", true⟩] :=
  ⟨by decide, by decide, by decide, by decide⟩

/-- C5: the v4 scanner emits occurrences in strictly left-to-right order
with pairwise disjoint, non-empty spans, and well-formed matches take
priority on overlap — no occurrence ever emitted as damaged overlaps any
match of the well-formed pattern, so in particular no sub-span inside a
well-formed placeholder is emitted as damaged. -/
theorem scanner_order_and_priority (s : List Char) :
    (extractOccs s).Pairwise (fun a b => a.stop ≤ b.start) ∧
    (∀ o ∈ extractOccs s, o.start < o.stop) ∧
    (∀ o ∈ extractOccs s, o.wf = false →
      ∀ p ∈ scanM correctEnd s, p.2 ≤ o.start ∨ o.stop ≤ p.1) := by
  obtain ⟨hpw, hlt, _, hdam⟩ := extractOccs_inv s
  refine ⟨?_, hlt, hdam⟩
  have hsorted := extractOccs_sorted s
  have hand := hsorted.and hpw
  refine hand.imp_of_mem ?_
  intro a b ha hb hab
  obtain ⟨hle, hdisj⟩ := hab
  cases hdisj with
  | inl hba =>
    have h1 : a.start ≤ b.start := hle
    have h2 : b.start < b.stop := hlt b hb
    omega
  | inr hok => exact hok

/-- Witness for C5: a damaged occurrence and a later well-formed
occurrence in one block are disjoint. -/
theorem scanner_order_and_priority_case : (20 : Nat) ≤ 0 ∨ (7 : Nat) ≤ 8 :=
  (scanner_order_and_priority (strL "EqN1>>, <<Eqn2.eps>>")).2.2
    ⟨0, 7, strL "<<Eqn1,>>", false⟩ (by decide) (by decide) (8, 20) (by decide)

/-- C6: reconciliation is idempotent in both restorers.  In the v4
restorer, when the candidate sequence of a translated document already
equals the canonical sequence exactly, the document pass returns every
text block byte-identical.  In the batch byte-patch strategy, replacing
each candidate text by itself leaves the content unchanged. -/
theorem reconciliation_idempotent :
    (∀ (os : List (List Char)) (blocks : List (List Char)),
      docCandidates blocks = os → (processDocV4 os blocks).2 = blocks) ∧
    (∀ (raw : List Char) (cs : List (List Char)), applySubs raw (cs.zip cs) = raw) := by
  constructor
  · intro os blocks heq
    have hlen : (docCandidates blocks).length = os.length := by rw [heq]
    have h0 : 0 + (docCandidates blocks).length ≤ os.length := by omega
    have hself : (os.drop 0).take (docCandidates blocks).length = docCandidates blocks := by
      rw [List.drop_zero, hlen, List.take_length]
      exact heq.symm
    unfold processDocV4
    rw [processDocV4_self_aux os blocks 0 0 h0 hself]
  · intro raw cs
    exact applySubs_self cs raw

/-- Witness for C6: a reconciled block whose single candidate equals the
single canonical entry is left untouched. -/
theorem reconciliation_idempotent_case :
    (processDocV4 [strL "<<Eqn1>>"] [strL "a <<Eqn1>>"]).2 = [strL "a <<Eqn1>>"] :=
  reconciliation_idempotent.1 [strL "<<Eqn1>>"] [strL "a <<Eqn1>>"] (by decide)

/-- Counterexample for C7: the sequential first-match byte patch does
cross-contaminate.  The translated content carries the bare damaged
candidate text of equation five twice; the first replacement installs the
first canonical entry, whose text contains that candidate text as a
substring, so the second replacement lands inside the first replacement's
output — producing doubled brackets — while the actual second occurrence
is left untouched.  The result differs from the intended positional
rewrite of the two scanned spans. -/
theorem byte_patch_cross_contaminates :
    scanTexts robustEnd (strL "xEqn5y and xEqn5y") = [strL "Eqn5", strL "Eqn5"] ∧
    scanM robustEnd (strL "xEqn5y and xEqn5y") = [(1, 5), (12, 16)] ∧
    scanTexts strictEnd (strL "x<<Eqn5>>y and x<<Eqn6>>y") =
      [strL "<<Eqn5>>", strL "<<Eqn6>>"] ∧
    processDocB (strL "x<<Eqn5>>y and x<<Eqn6>>y") (strL "xEqn5y and xEqn5y")
        (strL "xEqn5y and xEqn5y") false =
      BatchOut.replaced (strL "x<<<<Eqn6>>>>y and xEqn5y") false
        [(strL "Eqn5", strL "<<Eqn5>>"), (strL "Eqn5", strL "<<Eqn6>>")] ∧
    rebuild (strL "xEqn5y and xEqn5y") 0
        [((1, 5), strL "<<Eqn5>>"), ((12, 16), strL "<<Eqn6>>")] =
      strL "x<<Eqn5>>y and x<<Eqn6>>y" ∧
    strL "x<<<<Eqn6>>>>y and xEqn5y" ≠ strL "x<<Eqn5>>y and x<<Eqn6>>y" :=
  ⟨by decide, by decide, by decide, by decide, by decide, by decide⟩

/-- C7 as amended: each step of the byte-patch loop replaces the leftmost
occurrence of the candidate's text in the content as already modified by
the earlier replacements — a first-match rule without positional
consumption.  The replacement therefore lands on the intended occurrence
only when no earlier substring of the current content (including text
installed by previous replacements) equals the candidate text; duplicate
or contained candidate texts can cross-contaminate, as the counterexample
shows. -/
theorem replaceFirst_leftmost (s pat rep : List Char) (i : Nat)
    (h : findSub s pat = some i) :
    replaceFirst s pat rep = s.take i ++ rep ++ s.drop (i + pat.length) ∧
    substrAt s pat i = true ∧
    ∀ j, j < i → substrAt s pat j = false := by
  obtain ⟨_, hsub, hmin⟩ := findSubAux_spec s pat (s.length + 1) 0 i h
  exact ⟨replaceFirst_of_findSub h rep, hsub, fun j hj => hmin j (Nat.zero_le j) hj⟩

/-- Witness for C7 as amended: the replacement lands on the leftmost of
two occurrences. -/
theorem replaceFirst_leftmost_case :
    replaceFirst (strL "abEqn5cEqn5") (strL "Eqn5") (strL "<<Eqn9>>") =
      strL "ab<<Eqn9>>cEqn5" :=
  ((replaceFirst_leftmost (strL "abEqn5cEqn5") (strL "Eqn5") (strL "<<Eqn9>>") 2
    (by decide)).1).trans (by decide)

/-- Counterexample for C8: the restorers' text-block extractor does not
visit header or footer tables.  In a document whose only section has a
header table with one cell paragraph, the batch extractor yields only the
body paragraph, while the cleaner traversal of the translator script also
yields the header-table paragraph. -/
theorem restorer_extractor_skips_hf_tables :
    getAllTextB hfTableDoc = [strL "B"] ∧
    strL "T" ∉ getAllTextB hfTableDoc ∧
    cleanTraversalD hfTableDoc = [strL "B", strL "T"] :=
  ⟨by decide, by decide, by decide⟩

/-- C8 as amended: the batch (and v4) extractor yields exactly body
paragraphs, then body tables (rows top to bottom, cells left to right,
paragraphs top to bottom), then per section header paragraphs followed by
footer paragraphs — skipping header and footer tables; the translator
script's cleaner traversal additionally visits, per section, header
paragraphs, header tables, footer paragraphs and footer tables with the
same nesting. -/
theorem traversal_orders (d : Docx) :
    getAllTextB d = getAllTextSpec d ∧ cleanTraversalD d = cleanTraversalSpec d := by
  constructor
  · dsimp only [getAllTextB, getAllTextSpec]
    rw [foldl_snoc, List.nil_append, foldl_tables, foldl_sections_batch]
  · dsimp only [cleanTraversalD, cleanTraversalSpec]
    rw [foldl_snoc, List.nil_append, foldl_tables, foldl_sections_clean]

/-- C9: the v4 substitution changes only the spans of scanned occurrences.
The output of the per-text substitution is exactly the source text rebuilt
from its scanned match spans, where every character between, before and
after the spans is copied from the source verbatim (the gaps in the
rebuild are literal slices of the input); a text with no occurrence is
returned byte-identical, and a block without the Eqn keyword is not
touched at all. -/
theorem substitution_frame (os : List (List Char)) (st : RepSt) (s : List Char) :
    (processTextV4 os st s).2 =
      rebuild s 0 (subPlan (replacePh os) s st (scanM compEnd s)).2 ∧
    (scanM compEnd s = [] → (processTextV4 os st s).2 = s) ∧
    (hasSub s (strL "Eqn") = false → processBlockV4 os st s = (st, s)) := by
  refine ⟨?_, ?_, ?_⟩
  · rw [processTextV4_spec]
  · intro hscan
    rw [processTextV4_spec, hscan]
    simp [subPlan, rebuild]
  · intro hb
    simp [processBlockV4, hb]

/-- Witness for C9: a text with no occurrence is returned unchanged. -/
theorem substitution_frame_case :
    (processTextV4 [strL "<<Eqn1>>"] ⟨0, 0⟩ (strL "plain text")).2 =
      strL "plain text" :=
  (substitution_frame [strL "<<Eqn1>>"] ⟨0, 0⟩ (strL "plain text")).2.1 (by decide)

/-- C10: in the v4 restorer, a candidate occurrence whose order index is
at least the canonical length is returned verbatim — its own matched text,
unchanged — while the found-in-translation index still advances and the
replaced counter does not; consequently, over a whole candidate list that
is at least as long as the canonical sequence, the emitted texts are the
canonical entries followed by the excess candidates verbatim, the final
index counts every candidate and the replaced counter equals the canonical
length. -/
theorem v4_excess_candidates_preserved :
    (∀ (os : List (List Char)) (st : RepSt) (matched : List Char),
      os.length ≤ st.idx →
        replacePh os st matched = (⟨st.idx + 1, st.repl⟩, matched)) ∧
    (∀ (os ds : List (List Char)), os.length ≤ ds.length →
      mapAccumL (replacePh os) ⟨0, 0⟩ ds =
        (⟨ds.length, os.length⟩, os ++ ds.drop os.length)) := by
  constructor
  · intro os st matched h
    unfold replacePh
    rw [dif_neg (by omega)]
  · intro os ds hlen
    conv_lhs => rw [← List.take_append_drop os.length ds]
    rw [mapAccumL_append]
    have hlen1 : (ds.take os.length).length = os.length := by
      rw [List.length_take]
      omega
    have h1 : 0 + (ds.take os.length).length ≤ os.length := by omega
    rw [replacePh_emit_take os _ 0 0 h1, hlen1]
    simp only [Nat.zero_add]
    rw [replacePh_emit_beyond os _ os.length os.length (Nat.le_refl _)]
    refine Prod.ext ?_ ?_
    · show RepSt.mk (os.length + (ds.drop os.length).length) os.length =
        RepSt.mk ds.length os.length
      rw [List.length_drop]
      congr 1
      omega
    · show (os.drop 0).take os.length ++ ds.drop os.length = os ++ ds.drop os.length
      rw [List.drop_zero, List.take_length]

/-- Witness for C10: with one canonical entry already consumed, a second
candidate is preserved verbatim while the index advances. -/
theorem v4_excess_candidates_preserved_case :
    replacePh [strL "<<Eqn1>>"] ⟨1, 1⟩ (strL "Eqn9>>") = (⟨2, 1⟩, strL "Eqn9>>") :=
  v4_excess_candidates_preserved.1 [strL "<<Eqn1>>"] ⟨1, 1⟩ (strL "Eqn9>>") (by decide)

end TranslateAI
